import Mathlib

/-!
Verification of the statistics / formatting / resolver core of the
zabbix traffic-report scripts (`3-coleta-cabral.py`,
`zabbix-send-received-95.py`, `zabbix-testar-labels.py`).

Modelling conventions:
* Python floats are modelled by `ℚ`; every computation the theorems touch
  is exact decimal arithmetic, so no rounding behaviour of binary floats
  is involved.
* Python dicts are modelled by functions into `Option`; `d.setdefault`
  and `d[k] = v` become pointwise updates.
* Python lists are `List`, loops become folds, and the bounded
  `while`-loop of `format_bps` becomes fuel-indexed recursion with the
  same bound as the source (`len(units) - 1 = 4`).
* The network layer is out of scope: functions that post-process an API
  response take the decoded response as an argument.
-/

namespace ZX

/-- Python `int(x)` on a rational: truncation toward zero
(for `x ≥ 0` this is the floor). -/
def pyint (q : ℚ) : ℤ := if 0 ≤ q then ⌊q⌋ else -⌊-q⌋

/-- `percentile(values, p)` from both reporting scripts:
empty input returns the sentinel `None`; otherwise the values are sorted,
`k = (len(vals)-1)*(p/100)`, `f = int(k)`, `c = min(f+1, len(vals)-1)`,
and the result is `vals[f]` when `f == c`, else
`vals[f] + (vals[c]-vals[f])*(k-f)`. -/
def percentile (values : List ℚ) (p : ℚ) : Option ℚ :=
  if values = [] then none
  else
    let vals := values.insertionSort (fun a b => a ≤ b)
    let n : ℕ := vals.length
    let k : ℚ := ((n : ℚ) - 1) * (p / 100)
    let f : ℤ := pyint k
    let c : ℤ := min (f + 1) ((n : ℤ) - 1)
    if f = c then some (vals.getD f.toNat 0)
    else some (vals.getD f.toNat 0 +
      (vals.getD c.toNat 0 - vals.getD f.toNat 0) * (k - (f : ℚ)))

/-- The spec's own wording of the interpolation, on an already sorted
list: `k = (n-1)*p/100`, `f = floor(k)`, `c = min(f+1, n-1)`, answer
`v[f]` when `f == c`, else `v[f] + (v[c]-v[f])*(k-f)`.  Kept separate
from `percentile` so the code can be compared against the spec text. -/
def specInterpolation (vals : List ℚ) (p : ℚ) : ℚ :=
  let n : ℕ := vals.length
  let k : ℚ := ((n : ℚ) - 1) * (p / 100)
  let f : ℤ := ⌊k⌋
  let c : ℤ := min (f + 1) ((n : ℤ) - 1)
  if f = c then vals.getD f.toNat 0
  else vals.getD f.toNat 0 +
    (vals.getD c.toNat 0 - vals.getD f.toNat 0) * (k - (f : ℚ))

/-! ### Time window (`intervalo_mes_anterior_utc`) -/

/-- Gregorian leap-year rule, as used by `calendar.monthrange`. -/
def isLeap (y : ℕ) : Bool := y % 4 == 0 && (y % 100 != 0 || y % 400 == 0)

/-- `calendar.monthrange(y, m)[1]`: the number of days of month `m`
of year `y`. -/
def monthDays (y m : ℕ) : ℕ :=
  if m = 2 then (if isLeap y then 29 else 28)
  else if m = 4 ∨ m = 6 ∨ m = 9 ∨ m = 11 then 30
  else 31

/-- Days from 1970-01-01 to the first day of year `y` (for `y ≥ 1970`). -/
def daysBeforeYear (y : ℕ) : ℕ :=
  ((List.range (y - 1970)).map (fun i => if isLeap (1970 + i) then 366 else 365)).sum

/-- Days from the first day of year `y` to the first day of its month `m`. -/
def daysBeforeMonth (y m : ℕ) : ℕ :=
  ((List.range (m - 1)).map (fun i => monthDays y (i + 1))).sum

/-- `int(datetime(y, m, d, hh, mi, ss, tzinfo=timezone.utc).timestamp())`
for dates from 1970 on: seconds since the epoch. -/
def utcTimestamp (y m d hh mi ss : ℕ) : ℕ :=
  (daysBeforeYear y + daysBeforeMonth y m + (d - 1)) * 86400 +
    hh * 3600 + mi * 60 + ss

/-- `intervalo_mes_anterior_utc(now)` from both reporting scripts.  Only
`now.year` and `now.month` are read from the input, so the embedding
takes exactly those.  Returns epoch seconds of the first instant and the
last second of the previous calendar month. -/
def intervalo_mes_anterior_utc (y m : ℕ) : ℕ × ℕ :=
  let ano := if 1 < m then y else y - 1
  let mes := if 1 < m then m - 1 else 12
  (utcTimestamp ano mes 1 0 0 0,
   utcTimestamp ano mes (monthDays ano mes) 23 59 59)

/-! ### Rate formatter (`format_bps`) -/

/-- The unit ladder of `format_bps`. -/
def unitNames : List String := ["bps", "Kbps", "Mbps", "Gbps", "Tbps"]

/-- The `while v >= 1000 and i < len(units) - 1` loop of `format_bps`.
The fuel counts the remaining admissible increments of `i`; it is called
with fuel `4 - i`, so running out of fuel is exactly the `i < 4` guard
turning false. -/
def fbLoop : ℕ → ℚ → ℕ → ℚ × ℕ
  | 0, v, i => (v, i)
  | j + 1, v, i => if 1000 ≤ v then fbLoop j (v / 1000) (i + 1) else (v, i)

/-- Python's `f"{v:.2f}"` for the exact (decimal) values reached in this
development: the value rounded to a whole number of hundredths, printed
with two digits after the point.  (On inputs that are exact multiples of
1/100 — the only ones the theorems below evaluate — this agrees with
CPython's float formatting.) -/
def fmt2 (q : ℚ) : String :=
  let n : ℤ := round (q * 100)
  let sgn := if n < 0 then "-" else ""
  let m := n.natAbs
  sgn ++ toString (m / 100) ++ "." ++
    (if m % 100 < 10 then "0" else "") ++ toString (m % 100)

/-- `format_bps(bps)` from both reporting scripts. -/
def format_bps (bps : ℚ) : String :=
  let r := fbLoop 4 bps 0
  fmt2 r.1 ++ " " ++ unitNames.getD r.2 "bps"

/-! ### Trend fetcher (`fetch_trend_avgs`), statistics reducer -/

/-- One hourly trend bucket as returned by `trend.get` (the `clock`
field is not used by the reduction and is omitted; `num` is the sample
count, a natural number). -/
structure TrendBucket where
  num : ℕ
  value_avg : ℚ
  value_min : ℚ
  value_max : ℚ
deriving DecidableEq

/-- The post-processing of `fetch_trend_avgs` applied to the decoded
`trend.get` response: keep only buckets with `num > 0` and return the
three parallel value sequences. -/
def fetch_trend_avgs (trends : List TrendBucket) : List ℚ × List ℚ × List ℚ :=
  if trends = [] then ([], [], [])
  else
    let buckets := trends.filter (fun t => decide (0 < t.num))
    if buckets = [] then ([], [], [])
    else (buckets.map (fun t => t.value_avg),
          buckets.map (fun t => t.value_min),
          buckets.map (fun t => t.value_max))

/-- Python `min(l)` for a nonempty list (the scripts only apply it to
nonempty lists). -/
def listMin : List ℚ → ℚ
  | [] => 0
  | x :: xs => xs.foldl min x

/-- Python `max(l)` for a nonempty list. -/
def listMax : List ℚ → ℚ
  | [] => 0
  | x :: xs => xs.foldl max x

/-- The per-direction summary record built in `main` of both reporting
scripts. -/
structure DirSummary where
  media : ℚ
  minv : ℚ
  maxv : ℚ
  p95 : Option ℚ
  total_bytes : ℚ
deriving DecidableEq

/-- The statistics block of `main` (both reporting scripts), for one
direction, given the three nonempty parallel sequences:
`media = statistics.mean(avgs)`, `min(mins)`, `max(maxs)`,
`percentile(avgs, 95)` (`PRINT_P95` is `True` in both scripts), and
`total_bytes = sum(a * 3600 for a in avgs) / 8`. -/
def summarize (avgs mins maxs : List ℚ) : DirSummary :=
  { media := avgs.sum / (avgs.length : ℚ)
    minv := listMin mins
    maxv := listMax maxs
    p95 := percentile avgs 95
    total_bytes := (avgs.map (fun a => a * 3600)).sum / 8 }

/-! ### Index extraction (`idx_from_key`) -/

/-- Numeric value of a digit string (most significant digit first). -/
def digitsVal (ds : List Char) : ℕ :=
  ds.foldl (fun n c => 10 * n + (c.toNat - 48)) 0

/-- The anchored search of `idx_from_key` on the reversed key: a match
of `\[(\d+)\]$` or `\.(\d+)\]$` is exactly — the key ends in `']'`,
immediately inside stands a nonempty (maximal) run of digits, and the
character before that run is `'['` (first regex) or `'.'` (second). -/
def idxRev (l : List Char) : Option ℕ :=
  match l with
  | c0 :: rest =>
    if c0 = ']' then
      let ds := rest.takeWhile Char.isDigit
      let pre := rest.dropWhile Char.isDigit
      if ds = [] then none
      else if pre.headD ' ' = '[' ∨ pre.headD ' ' = '.' then
        some (digitsVal ds.reverse)
      else none
    else none
  | [] => none

/-- `idxRev` restricted to the `\.(\d+)\]$` shape. -/
def idxRevDot (l : List Char) : Option ℕ :=
  match l with
  | c0 :: rest =>
    if c0 = ']' then
      let ds := rest.takeWhile Char.isDigit
      let pre := rest.dropWhile Char.isDigit
      if ds = [] then none
      else if pre.headD ' ' = '.' then some (digitsVal ds.reverse)
      else none
    else none
  | [] => none

/-- `idx_from_key` of `zabbix-testar-labels.py`: the anchored searches
`re.search(r'\[(\d+)\]$', key)` then `re.search(r'\.(\d+)\]$', key)`
(both extract the same trailing digit run, so the two attempts fuse
into one test on the preceding character). -/
def idx_from_key (key : String) : Option ℕ :=
  idxRev key.data.reverse

/-- The nested `idx_from_key` helper of `listar_itens_ifaces` in
`zabbix-send-received-95.py`, which only supports the
`re.search(r'\.(\d+)\]$', key)` shape. -/
def idx_from_key_dot (key : String) : Option ℕ :=
  idxRevDot key.data.reverse

/-! ### Label matching -/

/-- Python `str.lower()` (the configured patterns and the interface
names in the scripts are ASCII, where `Char.toLower` agrees with
CPython). -/
def pylower (s : String) : String := String.mk (s.data.map Char.toLower)

/-- `p` is a leading segment of `s`. -/
def leadsWith : List Char → List Char → Bool
  | [], _ => true
  | _ :: _, [] => false
  | a :: as, b :: bs => a == b && leadsWith as bs

/-- Python's substring test `p in s`, on character lists. -/
def occursIn : List Char → List Char → Bool
  | p, [] => leadsWith p []
  | p, b :: bs => leadsWith p (b :: bs) || occursIn p bs

/-- The per-interface test of `indices_por_label_patterns`
(`zabbix-send-received-95.py`): `p.lower() in nm.lower()`. -/
def matchLabel (p nm : String) : Bool :=
  occursIn (pylower p).data (pylower nm).data

/-- The indices whose name matches pattern `p` — the set
`result[p]` built by `indices_por_label_patterns` (a Python `set`;
membership is the only observable, the embedding lists the indices in
`names_all` order). -/
def labelMatches (names_all : List (ℕ × String)) (p : String) : List ℕ :=
  (names_all.filter (fun e => matchLabel p e.2)).map Prod.fst

/-- `indices_por_label_patterns(names_all, patterns)`: one index set per
pattern. -/
def indices_por_label_patterns (names_all : List (ℕ × String))
    (patterns : List String) : List (String × List ℕ) :=
  patterns.map (fun p => (p, labelMatches names_all p))

/-- One item tag (`{"tag": ..., "value": ...}`). -/
structure Tag where
  tag : String
  value : String

/-- Python `sep.join(blocks)`. -/
def joinSep (sep : String) : List String → String
  | [] => ""
  | x :: xs => xs.foldl (fun acc y => acc ++ sep ++ y) x

/-- The `text` built by `match_patterns` in `zabbix-testar-labels.py`:
the name alone when there are no tags, otherwise name and all tag
keys/values joined by `" | "`, lowercased. -/
def matchText (name : String) (tags : List Tag) : String :=
  if tags.isEmpty then pylower name
  else pylower (joinSep " | " (name :: tags.flatMap (fun t => [t.tag, t.value])))

/-- `match_patterns(name, tags, patterns)` of `zabbix-testar-labels.py`:
for each pattern, whether its lowercase form occurs in the combined
name/tag text. -/
def match_patterns (name : String) (tags : List Tag)
    (patterns : List String) : List (String × Bool) :=
  patterns.map (fun p => (p, occursIn (pylower p).data (matchText name tags).data))

/-! ### Item listing (`listar_itens_ifaces`, `zabbix-send-received-95.py`) -/

/-- An item as returned by `item.get` (`itemid` is irrelevant to the
name maps and omitted). -/
structure ZItem where
  name : String
  key_ : String
deriving DecidableEq

/-- The four dictionaries built by `listar_itens_ifaces`. -/
structure IfaceMaps where
  idx_in : ℕ → Option ZItem
  idx_out : ℕ → Option ZItem
  name_by_idx : ℕ → Option String
  names_all : ℕ → Option String

/-- The state before any item is processed: four empty dicts. -/
def emptyMaps : IfaceMaps :=
  ⟨fun _ => none, fun _ => none, fun _ => none, fun _ => none⟩

/-- Python `d.setdefault(k, v)` on a dict modelled as a function:
the value at `k` is kept if present, otherwise set to `v`. -/
def setdefault {α : Type} (m : ℕ → Option α) (k : ℕ) (v : α) : ℕ → Option α :=
  fun j => if j = k then some ((m k).getD v) else m j

/-- Python `d[k] = v`. -/
def setkey {α : Type} (m : ℕ → Option α) (k : ℕ) (v : α) : ℕ → Option α :=
  fun j => if j = k then some v else m j

/-- One iteration of the `for it in items_in` loop of
`listar_itens_ifaces`: `idx_in[idx] = it`,
`name_by_idx.setdefault(idx, name)`, `names_all[idx] = name`
(a plain overwriting assignment). -/
def stepIn (s : IfaceMaps) (it : ZItem) : IfaceMaps :=
  match idx_from_key_dot it.key_ with
  | none => s
  | some idx =>
    { s with idx_in := setkey s.idx_in idx it
             name_by_idx := setdefault s.name_by_idx idx it.name
             names_all := setkey s.names_all idx it.name }

/-- One iteration of the `for it in items_out` loop:
`idx_out[idx] = it`, `name_by_idx.setdefault(idx, name)`,
`names_all.setdefault(idx, name)`. -/
def stepOut (s : IfaceMaps) (it : ZItem) : IfaceMaps :=
  match idx_from_key_dot it.key_ with
  | none => s
  | some idx =>
    { s with idx_out := setkey s.idx_out idx it
             name_by_idx := setdefault s.name_by_idx idx it.name
             names_all := setdefault s.names_all idx it.name }

/-- The dictionary-building part of `listar_itens_ifaces`, applied to
the two decoded `item.get` responses (inbound items first, then
outbound). -/
def listar_itens_ifaces (items_in items_out : List ZItem) : IfaceMaps :=
  items_out.foldl stepOut (items_in.foldl stepIn emptyMaps)

/-- The last item of `items` whose key parses to `idx`, if any. -/
def lastFor (items : List ZItem) (idx : ℕ) : Option ZItem :=
  items.reverse.find? (fun it => idx_from_key_dot it.key_ == some idx)

/-- The first item of `items` whose key parses to `idx`, if any. -/
def firstFor (items : List ZItem) (idx : ℕ) : Option ZItem :=
  items.find? (fun it => idx_from_key_dot it.key_ == some idx)

/-! ### Explicit-key resolver (`main` of `zabbix-send-received-95.py`,
lines 233–292) -/

/-- Traffic direction. -/
inductive Dir where
  | din
  | dout
deriving DecidableEq

/-- The inbound key template `f"net.if.in[ifHCInOctets.{idx}]"`. -/
def kin (idx : ℕ) : String := "net.if.in[ifHCInOctets." ++ toString idx ++ "]"

/-- The outbound key template `f"net.if.out[ifHCOutOctets.{idx}]"`. -/
def kout (idx : ℕ) : String := "net.if.out[ifHCOutOctets." ++ toString idx ++ "]"

/-- `keys_needed`: both keys for every matched index, in order. -/
def keys_needed (all_indices : List ℕ) : List String :=
  all_indices.flatMap (fun idx => [kin idx, kout idx])

/-- An item as found by the batched exact-key `item.get` call; only the
`itemid` matters downstream. -/
structure FoundItem where
  itemid : ℕ

/-- `missing = [k for k in keys_needed if k not in found]`. -/
def missingKeys (all_indices : List ℕ) (found : String → Option FoundItem) :
    List String :=
  (keys_needed all_indices).filter (fun k => (found k).isNone)

/-- One entry of the `by_if` aggregator:
`{"label": ..., "IN": ..., "OUT": ...}`. -/
structure Entry where
  label : String
  dIN : Option DirSummary
  dOUT : Option DirSummary
deriving DecidableEq

/-- One record of `key_to_meta`. -/
structure Meta where
  key : String
  idx : ℕ
  dir : Dir
  label : String

/-- `key_to_meta` in its iteration order (the dict is built and
traversed in insertion order: `kin idx`, `kout idx` for each index). -/
def metasOf (all_indices : List ℕ) (label : ℕ → String) : List Meta :=
  all_indices.flatMap (fun idx =>
    [⟨kin idx, idx, Dir.din, label idx⟩, ⟨kout idx, idx, Dir.dout, label idx⟩])

/-- `by_if[idx][direc] = v`. -/
def setEntryDir (e : Entry) (d : Dir) (v : Option DirSummary) : Entry :=
  match d with
  | Dir.din => { e with dIN := v }
  | Dir.dout => { e with dOUT := v }

/-- Update the direction slot of the (present) entry at `k`. -/
def updEntry (m : ℕ → Option Entry) (k : ℕ) (d : Dir) (v : Option DirSummary) :
    ℕ → Option Entry :=
  fun j => if j = k then (m k).map (fun e => setEntryDir e d v) else m j

/-- One iteration of the `for key, meta in key_to_meta.items()` loop:
a key without a resolved item only `setdefault`s the entry and moves on;
a resolved key fetches its trends and stores `None` (no data) or the
summary into its direction slot.  `trends` maps an itemid to the decoded
`trend.get` response. -/
def stepKey (found : String → Option FoundItem) (trends : ℕ → List TrendBucket)
    (m : ℕ → Option Entry) (meta : Meta) : ℕ → Option Entry :=
  match found meta.key with
  | none => setdefault m meta.idx ⟨meta.label, none, none⟩
  | some it =>
    let m2 := setdefault m meta.idx ⟨meta.label, none, none⟩
    let r := fetch_trend_avgs (trends it.itemid)
    if r.1 = [] then updEntry m2 meta.idx meta.dir none
    else updEntry m2 meta.idx meta.dir (some (summarize r.1 r.2.1 r.2.2))

/-- The whole `by_if` aggregator for one host. -/
def by_if (all_indices : List ℕ) (label : ℕ → String)
    (found : String → Option FoundItem) (trends : ℕ → List TrendBucket) :
    ℕ → Option Entry :=
  (metasOf all_indices label).foldl (stepKey found trends) (fun _ => none)

/-- What one direction slot of `by_if` ends up holding for a given key:
nothing when the key was not resolved or its trends were empty after
filtering, the summary otherwise. -/
def dirResult (found : String → Option FoundItem)
    (trends : ℕ → List TrendBucket) (key : String) : Option DirSummary :=
  match found key with
  | none => none
  | some it =>
    let r := fetch_trend_avgs (trends it.itemid)
    if r.1 = [] then none else some (summarize r.1 r.2.1 r.2.2)

/-! ## Theorems -/

/-- For `q ≥ 0`, Python truncation agrees with the floor. -/
theorem pyint_eq_floor {q : ℚ} (h : 0 ≤ q) : pyint q = ⌊q⌋ := if_pos h

/-- Claim C1: `percentile` on a nonempty sequence sorts the values and
applies the spec's interpolation formula (`k = (n-1)*p/100`,
`f = floor k`, `c = min (f+1) (n-1)`, `v[f]` when `f = c`, otherwise
`v[f] + (v[c]-v[f])*(k-f)`); on every nonempty sorted sequence it
returns the first element at `p = 0` and the last element at `p = 100`;
`percentile [1,2,3,4] 95 = 3.85`; and the empty input returns the
sentinel `None`. -/
theorem C1_percentile :
    (∀ p : ℚ, percentile [] p = none)
    ∧ (∀ (v : List ℚ) (p : ℚ), v ≠ [] → 0 ≤ p →
        percentile v p =
          some (specInterpolation (v.insertionSort (fun a b => a ≤ b)) p))
    ∧ (∀ v : List ℚ, v ≠ [] → List.Sorted (fun a b => a ≤ b) v →
        percentile v 0 = some (v.getD 0 0))
    ∧ (∀ v : List ℚ, v ≠ [] → List.Sorted (fun a b => a ≤ b) v →
        percentile v 100 = some (v.getD (v.length - 1) 0))
    ∧ percentile [1, 2, 3, 4] 95 = some (77 / 20) := by
  refine ⟨fun p => rfl, ?_, ?_, ?_, ?_⟩
  · intro v p hv hp
    have hk : (0 : ℚ) ≤
        (((v.insertionSort (fun a b => a ≤ b)).length : ℚ) - 1) * (p / 100) := by
      have h1 : 1 ≤ (v.insertionSort (fun a b => a ≤ b)).length := by
        rw [List.length_insertionSort]
        exact List.length_pos.mpr hv
      have : (1 : ℚ) ≤ ((v.insertionSort (fun a b => a ≤ b)).length : ℚ) := by
        exact_mod_cast h1
      have h2 : (0 : ℚ) ≤ ((v.insertionSort (fun a b => a ≤ b)).length : ℚ) - 1 := by
        linarith
      exact mul_nonneg h2 (by positivity)
    simp only [percentile, specInterpolation, if_neg hv, pyint_eq_floor hk]
    split <;> rfl
  · intro v hv hs
    have hsort : v.insertionSort (fun a b => a ≤ b) = v :=
      List.Sorted.insertionSort_eq hs
    cases v with
    | nil => exact absurd rfl hv
    | cons a t =>
      simp only [percentile, if_neg hv, hsort]
      have hk : ((((a :: t).length : ℚ) - 1) * (0 / 100)) = 0 := by
        rw [zero_div, mul_zero]
      rw [hk]
      have hp0 : pyint 0 = 0 := by simp [pyint]
      rw [hp0]
      cases t with
      | nil => norm_num
      | cons b u =>
        have hc : min ((0 : ℤ) + 1) (((a :: b :: u).length : ℤ) - 1) = 1 := by
          simp only [List.length_cons]
          push_cast
          omega
        rw [hc]
        norm_num
  · intro v hv hs
    have hsort : v.insertionSort (fun a b => a ≤ b) = v :=
      List.Sorted.insertionSort_eq hs
    have hlen : 1 ≤ v.length := List.length_pos.mpr hv
    simp only [percentile, if_neg hv, hsort]
    have hk : (((v.length : ℚ) - 1) * (100 / 100)) = ((v.length : ℤ) - 1 : ℤ) := by
      push_cast
      ring
    rw [hk]
    have h0 : (0 : ℚ) ≤ (((v.length : ℤ) - 1 : ℤ) : ℚ) := by
      have h1 : (0 : ℤ) ≤ (v.length : ℤ) - 1 := by omega
      exact_mod_cast h1
    have hf : pyint (((v.length : ℤ) - 1 : ℤ) : ℚ) = (v.length : ℤ) - 1 := by
      rw [pyint_eq_floor h0, Int.floor_intCast]
    rw [hf]
    have hc : min ((v.length : ℤ) - 1 + 1) ((v.length : ℤ) - 1) = (v.length : ℤ) - 1 := by
      omega
    rw [hc, if_pos rfl]
    have ht : ((v.length : ℤ) - 1).toNat = v.length - 1 := by omega
    rw [ht]
  · norm_num [percentile, pyint, List.insertionSort, List.orderedInsert,
      List.getD, List.getElem_cons_succ, List.getElem_cons_zero,
      show ((2 : ℤ)).toNat = 2 from rfl, show ((3 : ℤ)).toNat = 3 from rfl]
    exact fun h => absurd h (by decide)

/-- Witness for C1 at concrete inputs. -/
theorem C1_percentile_witness :
    percentile [1, 2] 0 = some 1 ∧ percentile [1, 2] 100 = some 2 ∧
    percentile [4, 3] 95 =
      some (specInterpolation ([4, 3].insertionSort (fun a b => a ≤ b)) 95) := by
  refine ⟨?_, ?_, ?_⟩
  · exact C1_percentile.2.2.1 [1, 2] (by decide) (by decide)
  · exact C1_percentile.2.2.2.1 [1, 2] (by decide) (by decide)
  · exact C1_percentile.2.1 [4, 3] 95 (by decide) (by norm_num)

/-- Claim C2: the calendar-mode window is the previous calendar month:
for a month ≥ 2 it is month `m - 1` of the same year, for January it is
December of the prior year; the window runs from the month's first
instant to its last second, with the day count taken from the actual
month length (leap years included); for `now = 2025-01-15T00:00:00Z`
it is `(2024-12-01T00:00:00Z, 2024-12-31T23:59:59Z)` in epoch seconds;
and `time_from < time_till` always. -/
theorem C2_intervalo :
    (∀ y m : ℕ, 2 ≤ m →
        intervalo_mes_anterior_utc y m =
          (utcTimestamp y (m - 1) 1 0 0 0,
           utcTimestamp y (m - 1) (monthDays y (m - 1)) 23 59 59))
    ∧ (∀ y : ℕ, intervalo_mes_anterior_utc y 1 =
          (utcTimestamp (y - 1) 12 1 0 0 0,
           utcTimestamp (y - 1) 12 31 23 59 59))
    ∧ intervalo_mes_anterior_utc 2025 1 = (1733011200, 1735689599)
    ∧ monthDays 2024 2 = 29
    ∧ (intervalo_mes_anterior_utc 2024 3).2 + 1 -
        (intervalo_mes_anterior_utc 2024 3).1 = 29 * 86400
    ∧ (∀ y m : ℕ,
        (intervalo_mes_anterior_utc y m).1 < (intervalo_mes_anterior_utc y m).2) := by
  refine ⟨?_, ?_, by decide, by decide, by decide, ?_⟩
  · intro y m hm
    have h1 : 1 < m := by omega
    simp [intervalo_mes_anterior_utc, if_pos h1]
  · intro y
    simp [intervalo_mes_anterior_utc, monthDays]
  · intro y m
    simp only [intervalo_mes_anterior_utc, utcTimestamp]
    omega

/-- Witness for C2 at a concrete instant (March 2025, a month ≥ 2). -/
theorem C2_intervalo_witness :
    intervalo_mes_anterior_utc 2025 3 =
      (utcTimestamp 2025 2 1 0 0 0,
       utcTimestamp 2025 2 (monthDays 2025 2) 23 59 59) :=
  C2_intervalo.1 2025 3 (by decide)

/-- A `min`-fold is bounded by its seed and by every list element. -/
theorem foldl_min_le (xs : List ℚ) : ∀ a : ℚ,
    xs.foldl min a ≤ a ∧ ∀ x ∈ xs, xs.foldl min a ≤ x := by
  induction xs with
  | nil => exact fun a => ⟨le_refl a, by simp⟩
  | cons b t ih =>
    intro a
    have h := ih (min a b)
    refine ⟨le_trans h.1 (min_le_left a b), ?_⟩
    intro x hx
    rcases List.mem_cons.mp hx with rfl | hx2
    · exact le_trans h.1 (min_le_right a x)
    · exact h.2 x hx2

/-- A `min`-fold returns its seed or some list element. -/
theorem foldl_min_mem (xs : List ℚ) : ∀ a : ℚ,
    xs.foldl min a = a ∨ xs.foldl min a ∈ xs := by
  induction xs with
  | nil => exact fun a => Or.inl rfl
  | cons b t ih =>
    intro a
    rw [List.foldl_cons]
    rcases ih (min a b) with h | h
    · rcases min_choice a b with h2 | h2
      · exact Or.inl (by rw [h, h2])
      · exact Or.inr (by rw [h, h2]; exact List.mem_cons_self b t)
    · exact Or.inr (List.mem_cons_of_mem b h)

/-- A `max`-fold dominates its seed and every list element. -/
theorem foldl_max_le (xs : List ℚ) : ∀ a : ℚ,
    a ≤ xs.foldl max a ∧ ∀ x ∈ xs, x ≤ xs.foldl max a := by
  induction xs with
  | nil => exact fun a => ⟨le_refl a, by simp⟩
  | cons b t ih =>
    intro a
    have h := ih (max a b)
    refine ⟨le_trans (le_max_left a b) h.1, ?_⟩
    intro x hx
    rcases List.mem_cons.mp hx with rfl | hx2
    · exact le_trans (le_max_right a x) h.1
    · exact h.2 x hx2

/-- A `max`-fold returns its seed or some list element. -/
theorem foldl_max_mem (xs : List ℚ) : ∀ a : ℚ,
    xs.foldl max a = a ∨ xs.foldl max a ∈ xs := by
  induction xs with
  | nil => exact fun a => Or.inl rfl
  | cons b t ih =>
    intro a
    rw [List.foldl_cons]
    rcases ih (max a b) with h | h
    · rcases max_choice a b with h2 | h2
      · exact Or.inl (by rw [h, h2])
      · exact Or.inr (by rw [h, h2]; exact List.mem_cons_self b t)
    · exact Or.inr (List.mem_cons_of_mem b h)

/-- `listMin` of a nonempty list is its least element. -/
theorem listMin_spec (l : List ℚ) (h : l ≠ []) :
    listMin l ∈ l ∧ ∀ x ∈ l, listMin l ≤ x := by
  cases l with
  | nil => exact absurd rfl h
  | cons a t =>
    constructor
    · rcases foldl_min_mem t a with h2 | h2
      · rw [listMin, h2]; exact List.mem_cons_self a t
      · exact List.mem_cons_of_mem a (by rw [listMin]; exact h2)
    · intro x hx
      rcases List.mem_cons.mp hx with rfl | hx2
      · exact (foldl_min_le t x).1
      · exact (foldl_min_le t a).2 x hx2

/-- `listMax` of a nonempty list is its greatest element. -/
theorem listMax_spec (l : List ℚ) (h : l ≠ []) :
    listMax l ∈ l ∧ ∀ x ∈ l, x ≤ listMax l := by
  cases l with
  | nil => exact absurd rfl h
  | cons a t =>
    constructor
    · rcases foldl_max_mem t a with h2 | h2
      · rw [listMax, h2]; exact List.mem_cons_self a t
      · exact List.mem_cons_of_mem a (by rw [listMax]; exact h2)
    · intro x hx
      rcases List.mem_cons.mp hx with rfl | hx2
      · exact (foldl_max_le t x).1
      · exact (foldl_max_le t a).2 x hx2

/-- Claim C3: the per-direction reducer reports the arithmetic mean of
the avg sequence, the minimum of the min sequence, the maximum of the
max sequence, and `total_bytes = (Σ avg·3600)/8`; on
`avgs = [100], mins = [80], maxs = [120]` the mean is 100,
`total_bytes = 45000`, and the reported min is 80 — taken from the min
sequence, not from the avg sequence. -/
theorem C3_summarize :
    (∀ avgs mins maxs : List ℚ, avgs ≠ [] → mins ≠ [] → maxs ≠ [] →
      (summarize avgs mins maxs).media * (avgs.length : ℚ) = avgs.sum
      ∧ ((summarize avgs mins maxs).minv ∈ mins
          ∧ ∀ x ∈ mins, (summarize avgs mins maxs).minv ≤ x)
      ∧ ((summarize avgs mins maxs).maxv ∈ maxs
          ∧ ∀ x ∈ maxs, x ≤ (summarize avgs mins maxs).maxv)
      ∧ (summarize avgs mins maxs).total_bytes
          = (avgs.map (fun a => a * 3600)).sum / 8)
    ∧ (summarize [100] [80] [120]).media = 100
    ∧ (summarize [100] [80] [120]).minv = 80
    ∧ (summarize [100] [80] [120]).maxv = 120
    ∧ (summarize [100] [80] [120]).total_bytes = 45000
    ∧ (summarize [100] [80] [120]).minv ≠ listMin [100] := by
  refine ⟨?_, by norm_num [summarize], by norm_num [summarize, listMin],
    by norm_num [summarize, listMax], by norm_num [summarize],
    by norm_num [summarize, listMin]⟩
  intro avgs mins maxs ha hmi hma
  refine ⟨?_, listMin_spec mins hmi, listMax_spec maxs hma, rfl⟩
  have hlen : (avgs.length : ℚ) ≠ 0 := by
    have h0 : avgs.length ≠ 0 := fun h0 => ha (List.length_eq_zero.mp h0)
    exact_mod_cast h0
  exact div_mul_cancel₀ avgs.sum hlen

/-- Witness for C3 (the reducer applied to the spec's example
sequences). -/
theorem C3_summarize_witness :
    (summarize [100] [80] [120]).media * (([100] : List ℚ).length : ℚ)
        = ([100] : List ℚ).sum
    ∧ ((summarize [100] [80] [120]).minv ∈ ([80] : List ℚ)
        ∧ ∀ x ∈ ([80] : List ℚ), (summarize [100] [80] [120]).minv ≤ x)
    ∧ ((summarize [100] [80] [120]).maxv ∈ ([120] : List ℚ)
        ∧ ∀ x ∈ ([120] : List ℚ), x ≤ (summarize [100] [80] [120]).maxv)
    ∧ (summarize [100] [80] [120]).total_bytes
        = (([100] : List ℚ).map (fun a => a * 3600)).sum / 8 :=
  C3_summarize.1 [100] [80] [120] (by decide) (by decide) (by decide)

/-- The bucket filter keeps exactly the buckets with nonzero sample
count. -/
theorem filter_pos_eq_filter_ne (trends : List TrendBucket) :
    trends.filter (fun t => decide (0 < t.num))
      = trends.filter (fun t => decide (t.num ≠ 0)) :=
  List.filter_congr (fun t _ => by
    simp only [decide_eq_decide]
    exact Nat.pos_iff_ne_zero)

/-- Claim C4: the trend fetcher discards exactly the buckets whose
sample count is zero, returns the three parallel value sequences of the
surviving buckets in order (hence of equal length), returns three empty
sequences when no bucket has `num > 0`, and maps the spec's two-bucket
example to `([100], [80], [120])`. -/
theorem C4_fetch_trend_avgs :
    (∀ trends : List TrendBucket,
      (fetch_trend_avgs trends).1 =
        (trends.filter (fun t => decide (t.num ≠ 0))).map (fun t => t.value_avg)
      ∧ (fetch_trend_avgs trends).2.1 =
        (trends.filter (fun t => decide (t.num ≠ 0))).map (fun t => t.value_min)
      ∧ (fetch_trend_avgs trends).2.2 =
        (trends.filter (fun t => decide (t.num ≠ 0))).map (fun t => t.value_max))
    ∧ (∀ trends : List TrendBucket,
        (fetch_trend_avgs trends).1.length = (fetch_trend_avgs trends).2.1.length
        ∧ (fetch_trend_avgs trends).1.length = (fetch_trend_avgs trends).2.2.length)
    ∧ (∀ trends : List TrendBucket, (∀ t ∈ trends, t.num = 0) →
        fetch_trend_avgs trends = ([], [], []))
    ∧ fetch_trend_avgs [⟨0, 0, 0, 0⟩, ⟨5, 100, 80, 120⟩] = ([100], [80], [120]) := by
  have hmain : ∀ trends : List TrendBucket,
      (fetch_trend_avgs trends).1 =
        (trends.filter (fun t => decide (t.num ≠ 0))).map (fun t => t.value_avg)
      ∧ (fetch_trend_avgs trends).2.1 =
        (trends.filter (fun t => decide (t.num ≠ 0))).map (fun t => t.value_min)
      ∧ (fetch_trend_avgs trends).2.2 =
        (trends.filter (fun t => decide (t.num ≠ 0))).map (fun t => t.value_max) := by
    intro trends
    rw [← filter_pos_eq_filter_ne]
    simp only [fetch_trend_avgs]
    split_ifs with h1 h2
    · subst h1; exact ⟨rfl, rfl, rfl⟩
    · rw [h2]; exact ⟨rfl, rfl, rfl⟩
    · exact ⟨rfl, rfl, rfl⟩
  refine ⟨hmain, ?_, ?_, by decide⟩
  · intro trends
    rcases hmain trends with ⟨h1, h2, h3⟩
    rw [h1, h2, h3, List.length_map, List.length_map, List.length_map]
    exact ⟨rfl, rfl⟩
  · intro trends hz
    rcases hmain trends with ⟨h1, h2, h3⟩
    have hf : trends.filter (fun t => decide (t.num ≠ 0)) = [] := by
      rw [List.filter_eq_nil_iff]
      intro t ht
      simp [hz t ht]
    rw [hf] at h1 h2 h3
    rw [List.map_nil] at h1 h2 h3
    exact Prod.ext h1 (Prod.ext h2 h3)

/-- Witness for C4: a single zero-sample bucket yields the empty
triple. -/
theorem C4_fetch_trend_avgs_witness :
    fetch_trend_avgs [⟨0, 1, 2, 3⟩] = ([], [], []) :=
  C4_fetch_trend_avgs.2.2.1 [⟨0, 1, 2, 3⟩] (by decide)

/-- `takeWhile` over a block of satisfying elements followed by a
failing element takes exactly the block. -/
theorem takeWhile_block (p : Char → Bool) (c : Char) (hc : p c = false) :
    ∀ (l r : List Char), (∀ x ∈ l, p x = true) →
      (l ++ c :: r).takeWhile p = l := by
  intro l
  induction l with
  | nil => intro r _; simp [List.takeWhile_cons, hc]
  | cons a t ih =>
    intro r hl
    have ha : p a = true := hl a (List.mem_cons_self a t)
    simp only [List.cons_append, List.takeWhile_cons, ha, if_true]
    rw [ih r (fun x hx => hl x (List.mem_cons_of_mem a hx))]

/-- `dropWhile` over a block of satisfying elements followed by a
failing element drops exactly the block. -/
theorem dropWhile_block (p : Char → Bool) (c : Char) (hc : p c = false) :
    ∀ (l r : List Char), (∀ x ∈ l, p x = true) →
      (l ++ c :: r).dropWhile p = c :: r := by
  intro l
  induction l with
  | nil => intro r _; simp [List.dropWhile_cons, hc]
  | cons a t ih =>
    intro r hl
    have ha : p a = true := hl a (List.mem_cons_self a t)
    simp only [List.cons_append, List.dropWhile_cons, ha, if_true]
    exact ih r (fun x hx => hl x (List.mem_cons_of_mem a hx))

/-- Claim C6: `idx_from_key` returns the parsed digits for every key of
either supported shape — a trailing `.<digits>]` or a trailing
`[<digits>]` — and an explicit `None` for every other key: every key it
accepts decomposes into one of the two shapes. -/
theorem C6_idx_from_key :
    (∀ (t : List Char) (c : Char) (ds : List Char),
      (c = '[' ∨ c = '.') → ds ≠ [] → (∀ d ∈ ds, d.isDigit = true) →
      idx_from_key (String.mk (t ++ c :: ds ++ [']'])) = some (digitsVal ds))
    ∧ (∀ (s : String) (n : ℕ), idx_from_key s = some n →
        ∃ (t : List Char) (c : Char) (ds : List Char),
          s.data = t ++ c :: ds ++ [']'] ∧ (c = '[' ∨ c = '.') ∧ ds ≠ []
          ∧ (∀ d ∈ ds, d.isDigit = true) ∧ n = digitsVal ds)
    ∧ idx_from_key "net.if.in[ifHCInOctets.12]" = some 12
    ∧ idx_from_key "ifHCInOctets[7]" = some 7
    ∧ idx_from_key "foo" = none
    ∧ idx_from_key "net.if.inX12]" = none := by
  refine ⟨?_, ?_, by decide, by decide, by decide, by decide⟩
  · intro t c ds hc hne hdig
    have hcd : c.isDigit = false := by
      rcases hc with rfl | rfl <;> decide
    have hrev : (t ++ c :: ds ++ [']']).reverse
        = ']' :: (ds.reverse ++ c :: t.reverse) := by
      simp
    show idxRev (t ++ c :: ds ++ [']']).reverse = some (digitsVal ds)
    rw [hrev]
    have hdig2 : ∀ x ∈ ds.reverse, x.isDigit = true := by
      intro x hx
      exact hdig x (List.mem_reverse.mp hx)
    have htake := takeWhile_block Char.isDigit c hcd ds.reverse t.reverse hdig2
    have hdrop := dropWhile_block Char.isDigit c hcd ds.reverse t.reverse hdig2
    simp only [idxRev, htake, hdrop]
    rw [if_true, if_neg (show ¬ds.reverse = [] by simpa using hne),
      List.headD_cons, if_pos hc, List.reverse_reverse]
  · intro s n h
    have h2 : idxRev s.data.reverse = some n := h
    cases hrev : s.data.reverse with
    | nil => rw [hrev] at h2; exact absurd h2 (by simp [idxRev])
    | cons c0 rest =>
      rw [hrev] at h2
      have hs : s.data = rest.reverse ++ [c0] := by
        rw [← List.reverse_reverse s.data, hrev]
        simp
      by_cases h1 : c0 = ']'
      swap
      · rw [idxRev, if_neg h1] at h2; exact absurd h2 (by simp)
      subst h1
      simp only [idxRev] at h2
      rw [if_true] at h2
      by_cases hds : rest.takeWhile Char.isDigit = []
      · rw [if_pos hds] at h2; exact absurd h2 (by simp)
      rw [if_neg hds] at h2
      cases hdrop : rest.dropWhile Char.isDigit with
      | nil =>
        rw [hdrop] at h2
        exact absurd h2 (by simp [List.headD])
      | cons c r3 =>
        rw [hdrop, List.headD_cons] at h2
        by_cases hc : c = '[' ∨ c = '.'
        swap
        · rw [if_neg hc] at h2; exact absurd h2 (by simp)
        rw [if_pos hc] at h2
        have hn : n = digitsVal (rest.takeWhile Char.isDigit).reverse :=
          (Option.some.inj h2).symm
        refine ⟨r3.reverse, c, (rest.takeWhile Char.isDigit).reverse,
          ?_, hc, by simpa using hds, ?_, hn⟩
        · rw [hs]
          have hsplit : rest.takeWhile Char.isDigit ++ c :: r3 = rest := by
            rw [← hdrop]
            exact List.takeWhile_append_dropWhile Char.isDigit rest
          conv_lhs => rw [← hsplit]
          simp
        · intro d hd
          exact List.mem_takeWhile_imp (List.mem_reverse.mp hd)

/-- Witness for C6: the parser applied per the general shape theorem. -/
theorem C6_idx_from_key_witness :
    idx_from_key (String.mk
      (("ifInOctets".data) ++ '[' :: ['4', '2'] ++ [']'])) =
      some (digitsVal ['4', '2']) :=
  C6_idx_from_key.1 "ifInOctets".data '[' ['4', '2']
    (Or.inl rfl) (by decide) (by decide)

/-- Complete characterisation of the division loop: it divides by 1000
some `d ≤ fuel` times, stopping either below 1000 or at the fuel bound,
and every intermediate value was at least 1000. -/
theorem fbLoop_spec : ∀ (j : ℕ) (v : ℚ) (i : ℕ), ∃ d : ℕ, d ≤ j ∧
    fbLoop j v i = (v / 1000 ^ d, i + d) ∧
    (v / 1000 ^ d < 1000 ∨ d = j) ∧
    (∀ e, e < d → 1000 ≤ v / 1000 ^ e) := by
  intro j
  induction j with
  | zero =>
    intro v i
    exact ⟨0, le_refl 0, by simp [fbLoop], Or.inr rfl, fun e he => absurd he (by omega)⟩
  | succ j ih =>
    intro v i
    by_cases h : (1000 : ℚ) ≤ v
    · obtain ⟨d, hd, heq, hlt, hall⟩ := ih (v / 1000) (i + 1)
      refine ⟨d + 1, by omega, ?_, ?_, ?_⟩
      · rw [fbLoop, if_pos h, heq]
        have hpow : (v / 1000) / 1000 ^ d = v / 1000 ^ (d + 1) := by
          rw [div_div, ← pow_succ']
        rw [hpow]
        have : i + 1 + d = i + (d + 1) := by omega
        rw [this]
      · rcases hlt with hlt | hlt
        · left
          rw [div_div, ← pow_succ'] at hlt
          exact hlt
        · right; omega
      · intro e he
        cases e with
        | zero => simpa using h
        | succ e2 =>
          have h2 := hall e2 (by omega)
          rw [div_div, ← pow_succ'] at h2
          exact h2
    · refine ⟨0, by omega, by rw [fbLoop, if_neg h]; simp, Or.inl ?_, fun e he => absurd he (by omega)⟩
      simpa using not_le.mp h

/-- Claim C8: `format_bps` renders a non-negative value by repeated
division by 1000, choosing the unit index `i` such that all earlier
magnitudes were at least 1000 and the chosen magnitude is below 1000
(or `i` is the last unit); `format_bps 999 = "999.00 bps"`,
`format_bps 1000 = "1.00 Kbps"`,
`format_bps 1500000000 = "1.50 Gbps"`. -/
theorem C8_format_bps :
    (∀ bps : ℚ, 0 ≤ bps → ∃ i : ℕ, i ≤ 4 ∧
      format_bps bps = fmt2 (bps / 1000 ^ i) ++ " " ++ unitNames.getD i "bps"
      ∧ (bps / 1000 ^ i < 1000 ∨ i = 4)
      ∧ (∀ e, e < i → 1000 ≤ bps / 1000 ^ e))
    ∧ format_bps 999 = "999.00 bps"
    ∧ format_bps 1000 = "1.00 Kbps"
    ∧ format_bps 1500000000 = "1.50 Gbps" := by
  refine ⟨?_, ?_, ?_, ?_⟩
  · intro bps _
    obtain ⟨d, hd, heq, hlt, hall⟩ := fbLoop_spec 4 bps 0
    refine ⟨d, hd, ?_, by simpa using hlt, hall⟩
    rw [format_bps, heq]
    simp
  · norm_num [format_bps, fbLoop, fmt2, round_eq, unitNames, List.getD]
    rfl
  · norm_num [format_bps, fbLoop, fmt2, round_eq, unitNames, List.getD]
    rfl
  · norm_num [format_bps, fbLoop, fmt2, round_eq, unitNames, List.getD]
    rfl

/-- Witness for C8 at `bps = 10`. -/
theorem C8_format_bps_witness :
    ∃ i : ℕ, i ≤ 4 ∧
      format_bps 10 = fmt2 ((10 : ℚ) / 1000 ^ i) ++ " " ++ unitNames.getD i "bps"
      ∧ ((10 : ℚ) / 1000 ^ i < 1000 ∨ i = 4)
      ∧ (∀ e, e < i → 1000 ≤ (10 : ℚ) / 1000 ^ e) :=
  C8_format_bps.1 10 (by norm_num)

/-- Claim C10 (implicit): `format_bps` is total — the loop always stops
with a unit index of at most 4 — and from `10^15` (1000 Tbps) on, the
result keeps the unit `"Tbps"` with a magnitude of at least 1000, so
the "stay below 1000" rule is silently abandoned rather than failing. -/
theorem C10_format_bps_cap :
    (∀ bps : ℚ, ∃ (v : ℚ) (i : ℕ), i ≤ 4 ∧
      format_bps bps = fmt2 v ++ " " ++ unitNames.getD i "bps")
    ∧ (∀ bps : ℚ, 10 ^ 15 ≤ bps →
        format_bps bps = fmt2 (bps / 10 ^ 12) ++ " Tbps" ∧ 1000 ≤ bps / 10 ^ 12)
    ∧ format_bps (10 ^ 15) = "1000.00 Tbps" := by
  refine ⟨?_, ?_, ?_⟩
  · intro bps
    obtain ⟨d, hd, heq, _, _⟩ := fbLoop_spec 4 bps 0
    refine ⟨bps / 1000 ^ d, d, hd, ?_⟩
    rw [format_bps, heq]
    simp
  · intro bps hb
    obtain ⟨d, hd, heq, hlt, hall⟩ := fbLoop_spec 4 bps 0
    have hd4 : d = 4 := by
      by_contra hne
      have hge : 1000 ≤ bps / 1000 ^ d := by
        rw [le_div_iff₀ (by positivity)]
        have hp : (1000 : ℚ) ^ d ≤ 1000 ^ 3 :=
          pow_le_pow_right₀ (by norm_num) (by omega)
        nlinarith
      rcases hlt with hlt | hlt
      · exact absurd hlt (not_lt.mpr hge)
      · exact hne hlt
    subst hd4
    constructor
    · rw [format_bps, heq]
      have hu : unitNames.getD (0 + 4) "bps" = "Tbps" := rfl
      have hp : (1000 : ℚ) ^ 4 = 10 ^ 12 := by norm_num
      rw [hu, hp, String.append_assoc]
      rfl
    · rw [le_div_iff₀ (by norm_num)]
      nlinarith
  · norm_num [format_bps, fbLoop, fmt2, round_eq, unitNames, List.getD]
    rfl

/-- Witness for C10 at `bps = 2 · 10^15`. -/
theorem C10_format_bps_cap_witness :
    format_bps (2 * 10 ^ 15) = fmt2 ((2 * 10 ^ 15 : ℚ) / 10 ^ 12) ++ " Tbps"
    ∧ 1000 ≤ (2 * 10 ^ 15 : ℚ) / 10 ^ 12 :=
  C10_format_bps_cap.2.1 (2 * 10 ^ 15) (by norm_num)

/-- `leadsWith` is the prefix relation. -/
theorem leadsWith_iff (p : List Char) : ∀ s : List Char,
    leadsWith p s = true ↔ ∃ r, s = p ++ r := by
  induction p with
  | nil =>
    intro s
    simp [leadsWith]
  | cons a as ih =>
    intro s
    cases s with
    | nil =>
      simp [leadsWith]
    | cons b bs =>
      rw [leadsWith, Bool.and_eq_true, beq_iff_eq, ih bs]
      constructor
      · rintro ⟨rfl, r, rfl⟩
        exact ⟨r, rfl⟩
      · rintro ⟨r, hr⟩
        rw [List.cons_append] at hr
        injection hr with h1 h2
        exact ⟨h1.symm, r, h2⟩

/-- Python's `in`: `occursIn p s` holds exactly when `p` occurs as a
contiguous segment of `s`. -/
theorem occursIn_iff (p : List Char) : ∀ s : List Char,
    occursIn p s = true ↔ ∃ l r, s = l ++ p ++ r := by
  intro s
  induction s with
  | nil =>
    rw [occursIn, leadsWith_iff]
    constructor
    · rintro ⟨r, hr⟩
      exact ⟨[], r, hr⟩
    · rintro ⟨l, r, hr⟩
      rcases List.append_eq_nil.mp (List.append_eq_nil.mp hr.symm).1 with ⟨h1, h2⟩
      exact ⟨r, by simp [h2, (List.append_eq_nil.mp hr.symm).2]⟩
  | cons b bs ih =>
    rw [occursIn, Bool.or_eq_true, leadsWith_iff, ih]
    constructor
    · rintro (⟨r, hr⟩ | ⟨l, r, hr⟩)
      · exact ⟨[], r, by simp [hr]⟩
      · exact ⟨b :: l, r, by simp [hr]⟩
    · rintro ⟨l, r, hr⟩
      cases l with
      | nil =>
        left
        exact ⟨r, by simpa using hr⟩
      | cons c l2 =>
        right
        rw [List.cons_append, List.cons_append] at hr
        injection hr with h1 h2
        exact ⟨l2, r, h2⟩

/-- Claim C9: label matching is case-insensitive substring matching —
an interface name matches a pattern exactly when the lowercased pattern
occurs inside the lowercased name; `"peering"` matches
`"Peering-Transit-1"`; `indices_por_label_patterns` assigns to each
pattern exactly the indices whose name matches it; and the tag-aware
variant tests the lowercased pattern against the combined lowercased
name/tag text. -/
theorem C9_label_matching :
    (∀ p nm : String, matchLabel p nm = true ↔
      ∃ l r : List Char, (pylower nm).data = l ++ (pylower p).data ++ r)
    ∧ matchLabel "peering" "Peering-Transit-1" = true
    ∧ (∀ (names_all : List (ℕ × String)) (patterns : List String) (p : String),
        p ∈ patterns →
          (p, labelMatches names_all p) ∈ indices_por_label_patterns names_all patterns)
    ∧ (∀ (names_all : List (ℕ × String)) (p : String) (idx : ℕ),
        idx ∈ labelMatches names_all p ↔
          ∃ nm, (idx, nm) ∈ names_all ∧ matchLabel p nm = true)
    ∧ (∀ (name : String) (tags : List Tag) (patterns : List String) (p : String),
        p ∈ patterns →
          (p, occursIn (pylower p).data (matchText name tags).data)
            ∈ match_patterns name tags patterns) := by
  refine ⟨?_, by decide, ?_, ?_, ?_⟩
  · intro p nm
    exact occursIn_iff (pylower p).data (pylower nm).data
  · intro names_all patterns p hp
    exact List.mem_map_of_mem (fun q => (q, labelMatches names_all q)) hp
  · intro names_all p idx
    constructor
    · intro h
      rcases List.mem_map.mp h with ⟨⟨i, nm⟩, he, hfst⟩
      rcases List.mem_filter.mp he with ⟨hmem, hml⟩
      cases hfst
      exact ⟨nm, hmem, hml⟩
    · rintro ⟨nm, hmem, hml⟩
      exact List.mem_map.mpr ⟨(idx, nm), List.mem_filter.mpr ⟨hmem, hml⟩, rfl⟩
  · intro name tags patterns p hp
    exact List.mem_map_of_mem
      (fun q => (q, occursIn (pylower q).data (matchText name tags).data)) hp

/-- Witness for C9: the characterisation and the per-pattern index sets
applied at concrete inputs. -/
theorem C9_label_matching_witness :
    (("ab", labelMatches [(3, "xAby")] "ab")
        ∈ indices_por_label_patterns [(3, "xAby")] ["ab"])
    ∧ (3 ∈ labelMatches [(3, "xAby")] "ab" ↔
        ∃ nm, ((3 : ℕ), nm) ∈ [((3 : ℕ), "xAby")] ∧ matchLabel "ab" nm = true) :=
  ⟨C9_label_matching.2.2.1 [(3, "xAby")] ["ab"] "ab" (by decide),
   C9_label_matching.2.2.2.1 [(3, "xAby")] "ab" 3⟩

/-- `stepOut` writes `names_all` with `setdefault` semantics. -/
theorem stepOut_names_all (s : IfaceMaps) (it : ZItem) (idx : ℕ) :
    (stepOut s it).names_all idx =
      match s.names_all idx with
      | some v => some v
      | none =>
        if idx_from_key_dot it.key_ = some idx then some it.name else none := by
  cases hp : idx_from_key_dot it.key_ with
  | none =>
    simp only [stepOut, hp]
    cases s.names_all idx <;> simp
  | some j =>
    simp only [stepOut, hp, setdefault]
    by_cases he : idx = j
    · subst he
      cases hs : s.names_all idx <;> simp [hs]
    · rw [if_neg he]
      cases hs : s.names_all idx <;>
        simp [hs, show ¬(some j = some idx) from fun h => he (Option.some.inj h).symm]

/-- `stepIn` writes `name_by_idx` with `setdefault` semantics. -/
theorem stepIn_name_by_idx (s : IfaceMaps) (it : ZItem) (idx : ℕ) :
    (stepIn s it).name_by_idx idx =
      match s.name_by_idx idx with
      | some v => some v
      | none =>
        if idx_from_key_dot it.key_ = some idx then some it.name else none := by
  cases hp : idx_from_key_dot it.key_ with
  | none =>
    simp only [stepIn, hp]
    cases s.name_by_idx idx <;> simp
  | some j =>
    simp only [stepIn, hp, setdefault]
    by_cases he : idx = j
    · subst he
      cases hs : s.name_by_idx idx <;> simp [hs]
    · rw [if_neg he]
      cases hs : s.name_by_idx idx <;>
        simp [hs, show ¬(some j = some idx) from fun h => he (Option.some.inj h).symm]

/-- `stepOut` writes `name_by_idx` with `setdefault` semantics. -/
theorem stepOut_name_by_idx (s : IfaceMaps) (it : ZItem) (idx : ℕ) :
    (stepOut s it).name_by_idx idx =
      match s.name_by_idx idx with
      | some v => some v
      | none =>
        if idx_from_key_dot it.key_ = some idx then some it.name else none := by
  cases hp : idx_from_key_dot it.key_ with
  | none =>
    simp only [stepOut, hp]
    cases s.name_by_idx idx <;> simp
  | some j =>
    simp only [stepOut, hp, setdefault]
    by_cases he : idx = j
    · subst he
      cases hs : s.name_by_idx idx <;> simp [hs]
    · rw [if_neg he]
      cases hs : s.name_by_idx idx <;>
        simp [hs, show ¬(some j = some idx) from fun h => he (Option.some.inj h).symm]

/-- `stepIn` overwrites `names_all` (plain assignment, not
`setdefault`). -/
theorem stepIn_names_all (s : IfaceMaps) (it : ZItem) (idx : ℕ) :
    (stepIn s it).names_all idx =
      if idx_from_key_dot it.key_ = some idx then some it.name
      else s.names_all idx := by
  cases hp : idx_from_key_dot it.key_ with
  | none => simp [stepIn, hp]
  | some j =>
    simp only [stepIn, hp, setkey]
    by_cases he : idx = j
    · subst he; simp
    · rw [if_neg he,
        if_neg (show ¬(some j = some idx) from fun h => he (Option.some.inj h).symm)]

/-- Folding any step with `setdefault` write semantics is first-wins:
an existing entry survives, an absent one is taken from the first item
of the list that parses to the index. -/
theorem fold_setdefault_proj (step : IfaceMaps → ZItem → IfaceMaps)
    (proj : IfaceMaps → ℕ → Option String)
    (hstep : ∀ s it idx, proj (step s it) idx =
      match proj s idx with
      | some v => some v
      | none =>
        if idx_from_key_dot it.key_ = some idx then some it.name else none) :
    ∀ (items : List ZItem) (s : IfaceMaps) (idx : ℕ),
      proj (items.foldl step s) idx =
        match proj s idx with
        | some v => some v
        | none => (firstFor items idx).map ZItem.name := by
  intro items
  induction items with
  | nil =>
    intro s idx
    cases s.names_all idx
    all_goals (cases hs : proj s idx <;> simp [firstFor, hs])
  | cons it rest ih =>
    intro s idx
    rw [List.foldl_cons, ih (step s it) idx, hstep s it idx]
    cases hs : proj s idx with
    | some v => rfl
    | none =>
      by_cases hp : idx_from_key_dot it.key_ = some idx
      · rw [if_pos hp]
        have hfind : firstFor (it :: rest) idx = some it :=
          List.find?_cons_of_pos rest (by simpa using hp)
        rw [hfind]
        rfl
      · rw [if_neg hp]
        have hfind : firstFor (it :: rest) idx = firstFor rest idx :=
          List.find?_cons_of_neg rest (by simpa using hp)
        rw [hfind]

/-- Folding `stepIn` over the inbound items leaves in `names_all` the
name of the LAST inbound item parsing to each index (overwriting
semantics). -/
theorem foldIn_names_all : ∀ (items : List ZItem) (s : IfaceMaps) (idx : ℕ),
    (items.foldl stepIn s).names_all idx =
      match lastFor items idx with
      | some it => some it.name
      | none => s.names_all idx := by
  intro items
  induction items with
  | nil => intro s idx; rfl
  | cons it rest ih =>
    intro s idx
    rw [List.foldl_cons, ih (stepIn s it) idx]
    have happ : lastFor (it :: rest) idx =
        (lastFor rest idx).or ([it].find?
          (fun x => idx_from_key_dot x.key_ == some idx)) := by
      rw [lastFor, List.reverse_cons, List.find?_append]
      rfl
    cases hr : lastFor rest idx with
    | some it2 =>
      rw [happ, hr]
      rfl
    | none =>
      rw [happ, hr, stepIn_names_all]
      by_cases hp : idx_from_key_dot it.key_ = some idx
      · rw [if_pos hp]
        simp [List.find?, hp]
      · rw [if_neg hp]
        simp only [List.find?]
        rw [show (idx_from_key_dot it.key_ == some idx) = false by simpa using hp]
        rfl

/-- Counterexample to C7 as stated: two inbound items whose keys parse
to the same interface index — the later one REPLACES the recorded
display name in `names_all` (assignment, not `setdefault`), so
first-wins does not hold among inbound items. -/
theorem C7_names_counterexample :
    (listar_itens_ifaces
        [⟨"A", "net.if.in[ifHCInOctets.1]"⟩, ⟨"B", "net.if.in[ifHCInOctets.2.1]"⟩]
        []).names_all 1 = some "B"
    ∧ (listar_itens_ifaces [⟨"A", "net.if.in[ifHCInOctets.1]"⟩] []).names_all 1
        = some "A"
    ∧ ("B" : String) ≠ "A" := by
  refine ⟨by decide, by decide, by decide⟩

/-- Claim C7 (amended): in the display-name map `names_all`, inbound
items take priority — an index with any inbound item never takes its
name from an outbound item, and outbound items never replace an
existing name (first-wins among outbound) — but among several inbound
items with the same index the LAST one wins, not the first; the
auxiliary `name_by_idx` map is strictly first-wins over inbound items
followed by outbound items. -/
theorem C7_names_amended :
    (∀ (items_in items_out : List ZItem) (idx : ℕ),
      (listar_itens_ifaces items_in items_out).names_all idx =
        match lastFor items_in idx with
        | some it => some it.name
        | none => (firstFor items_out idx).map ZItem.name)
    ∧ (∀ (items_in items_out : List ZItem) (idx : ℕ),
      (listar_itens_ifaces items_in items_out).name_by_idx idx =
        (firstFor (items_in ++ items_out) idx).map ZItem.name) := by
  constructor
  · intro items_in items_out idx
    rw [listar_itens_ifaces,
      fold_setdefault_proj stepOut (fun s => s.names_all) stepOut_names_all
        items_out _ idx,
      foldIn_names_all items_in emptyMaps idx]
    cases lastFor items_in idx with
    | some it => rfl
    | none => rfl
  · intro items_in items_out idx
    rw [listar_itens_ifaces,
      fold_setdefault_proj stepOut (fun s => s.name_by_idx) stepOut_name_by_idx
        items_out _ idx,
      fold_setdefault_proj stepIn (fun s => s.name_by_idx) stepIn_name_by_idx
        items_in emptyMaps idx]
    simp only [firstFor]
    rw [List.find?_append]
    cases h1 : items_in.find? (fun it => idx_from_key_dot it.key_ == some idx) with
    | some it => rfl
    | none => rfl

/-- `stepKey` only ever writes the entry of its own index. -/
theorem stepKey_other (found : String → Option FoundItem)
    (trends : ℕ → List TrendBucket) (m : ℕ → Option Entry) (meta : Meta)
    (j : ℕ) (h : j ≠ meta.idx) :
    stepKey found trends m meta j = m j := by
  cases hf : found meta.key with
  | none => simp [stepKey, hf, setdefault, h]
  | some it =>
    simp only [stepKey, hf]
    split_ifs with hr <;> simp [updEntry, setdefault, h]

/-- A fold over metas that never mention an index leaves its entry
alone. -/
theorem foldl_untouched (found : String → Option FoundItem)
    (trends : ℕ → List TrendBucket) :
    ∀ (metas : List Meta) (m : ℕ → Option Entry) (j : ℕ),
      (∀ meta ∈ metas, j ≠ meta.idx) →
      (metas.foldl (stepKey found trends) m) j = m j := by
  intro metas
  induction metas with
  | nil => intro m j _; rfl
  | cons meta rest ih =>
    intro m j hj
    rw [List.foldl_cons,
      ih (stepKey found trends m meta) j
        (fun x hx => hj x (List.mem_cons_of_mem meta hx)),
      stepKey_other found trends m meta j (hj meta (List.mem_cons_self meta rest))]

/-- Every meta record produced for an index list carries one of its
indices. -/
theorem metasOf_idx_mem (inds : List ℕ) (label : ℕ → String) (meta : Meta)
    (h : meta ∈ metasOf inds label) : meta.idx ∈ inds := by
  rcases List.mem_flatMap.mp h with ⟨i, hi, hmem⟩
  rcases List.mem_cons.mp hmem with rfl | hmem2
  · exact hi
  · rcases List.mem_cons.mp hmem2 with rfl | hmem3
    · exact hi
    · exact absurd hmem3 (List.not_mem_nil meta)

/-- Processing the inbound key of a fresh index installs the entry with
its label and the inbound direction result. -/
theorem step_kin_at (found : String → Option FoundItem)
    (trends : ℕ → List TrendBucket) (m : ℕ → Option Entry) (idx : ℕ)
    (lab : String) (hm : m idx = none) :
    stepKey found trends m ⟨kin idx, idx, Dir.din, lab⟩ idx
      = some ⟨lab, dirResult found trends (kin idx), none⟩ := by
  cases hf : found (kin idx) with
  | none => simp [stepKey, hf, setdefault, hm, dirResult]
  | some it =>
    simp only [stepKey, hf]
    split_ifs with hr <;>
      simp [updEntry, setdefault, hm, setEntryDir, dirResult, hf, hr]

/-- Processing the outbound key of an index whose entry is present (with
an unset OUT slot) fills exactly the OUT slot. -/
theorem step_kout_at (found : String → Option FoundItem)
    (trends : ℕ → List TrendBucket) (m : ℕ → Option Entry) (idx : ℕ)
    (lab : String) (e : Entry) (hm : m idx = some e) (he : e.dOUT = none) :
    stepKey found trends m ⟨kout idx, idx, Dir.dout, lab⟩ idx
      = some { e with dOUT := dirResult found trends (kout idx) } := by
  cases hf : found (kout idx) with
  | none =>
    cases e with
    | mk l di dout =>
      cases he
      simp [stepKey, hf, setdefault, hm, dirResult]
  | some it =>
    simp only [stepKey, hf]
    split_ifs with hr <;>
      simp [updEntry, setdefault, hm, setEntryDir, dirResult, hf, hr]

/-- The `by_if` fold computes, for every listed index, exactly the entry
with its label and the two direction results. -/
theorem foldl_metas_at (label : ℕ → String) (found : String → Option FoundItem)
    (trends : ℕ → List TrendBucket) :
    ∀ (inds : List ℕ) (m : ℕ → Option Entry) (idx : ℕ),
      inds.Nodup → idx ∈ inds → m idx = none →
      ((metasOf inds label).foldl (stepKey found trends) m) idx
        = some ⟨label idx, dirResult found trends (kin idx),
                dirResult found trends (kout idx)⟩ := by
  intro inds
  induction inds with
  | nil => intro m idx _ hidx _; exact absurd hidx (List.not_mem_nil idx)
  | cons i rest ih =>
    intro m idx hnd hidx hm
    have hexp : metasOf (i :: rest) label =
        ⟨kin i, i, Dir.din, label i⟩ :: ⟨kout i, i, Dir.dout, label i⟩ ::
          metasOf rest label := by
      simp [metasOf]
    rw [hexp, List.foldl_cons, List.foldl_cons]
    rcases List.mem_cons.mp hidx with rfl | hrest
    · have hnotin : idx ∉ rest := (List.nodup_cons.mp hnd).1
      rw [foldl_untouched found trends (metasOf rest label) _ idx
        (fun meta hmeta => fun he =>
          hnotin (he ▸ metasOf_idx_mem rest label meta hmeta))]
      rw [step_kout_at found trends _ idx (label idx)
        ⟨label idx, dirResult found trends (kin idx), none⟩
        (step_kin_at found trends m idx (label idx) hm) rfl]
    · have hne : idx ≠ i := by
        intro he
        exact (List.nodup_cons.mp hnd).1 (he ▸ hrest)
      have hm2 : stepKey found trends
          (stepKey found trends m ⟨kin i, i, Dir.din, label i⟩)
          ⟨kout i, i, Dir.dout, label i⟩ idx = none := by
        rw [stepKey_other found trends _ _ idx hne,
          stepKey_other found trends _ _ idx hne]
        exact hm
      exact ih _ idx (List.nodup_cons.mp hnd).2 hrest hm2

/-- Claim C5: EVERY requested key absent from the resolved item map —
inbound or outbound — lands in the missing report; for an absent
inbound key the entry's IN slot is left `None`, for an absent outbound
key the OUT slot is left `None`; the construction is total (never
raises) and every listed index is still processed to its own entry with
both direction results, so processing continues for every remaining
requested key of the host. -/
theorem C5_missing_key :
    ∀ (all_indices : List ℕ) (label : ℕ → String)
      (found : String → Option FoundItem) (trends : ℕ → List TrendBucket)
      (idx : ℕ),
      all_indices.Nodup → idx ∈ all_indices →
      ((∀ k ∈ keys_needed all_indices, found k = none →
          k ∈ missingKeys all_indices found)
       ∧ (found (kin idx) = none →
           by_if all_indices label found trends idx =
             some ⟨label idx, none, dirResult found trends (kout idx)⟩)
       ∧ (found (kout idx) = none →
           by_if all_indices label found trends idx =
             some ⟨label idx, dirResult found trends (kin idx), none⟩)
       ∧ (∀ j ∈ all_indices,
           by_if all_indices label found trends j =
             some ⟨label j, dirResult found trends (kin j),
                   dirResult found trends (kout j)⟩)) := by
  intro all_indices label found trends idx hnd hidx
  have hchar : ∀ j ∈ all_indices,
      by_if all_indices label found trends j =
        some ⟨label j, dirResult found trends (kin j),
              dirResult found trends (kout j)⟩ := by
    intro j hj
    exact foldl_metas_at label found trends all_indices _ j hnd hj rfl
  refine ⟨?_, ?_, ?_, hchar⟩
  · intro k hk hf
    rw [missingKeys]
    exact List.mem_filter.mpr ⟨hk, by simp [hf]⟩
  · intro hf
    rw [hchar idx hidx]
    simp [dirResult, hf]
  · intro hf
    rw [hchar idx hidx]
    simp [dirResult, hf]

/-- Witness for C5: one requested index with both keys unresolved — the
outbound key is reported missing and each absent direction slot is
`None`. -/
theorem C5_missing_key_witness :
    kout 1 ∈ missingKeys [1] (fun _ => none)
    ∧ by_if [1] (fun _ => "L") (fun _ => none) (fun _ => []) 1 =
        some ⟨"L", none, dirResult (fun _ => none) (fun _ => []) (kout 1)⟩
    ∧ by_if [1] (fun _ => "L") (fun _ => none) (fun _ => []) 1 =
        some ⟨"L", dirResult (fun _ => none) (fun _ => []) (kin 1), none⟩ := by
  have h := C5_missing_key [1] (fun _ => "L") (fun _ => none) (fun _ => []) 1
    (by decide) (by decide)
  exact ⟨h.1 (kout 1) (by decide) rfl, h.2.1 rfl, h.2.2.1 rfl⟩

end ZX
